import Mathlib

/-!
Shallow embedding of `src/misc/utils.rs` from the `rusp` repository.

The Rust functions operate on `f64`; the embedding models `f64` arithmetic
exactly over `ℚ`. The theorems proved about the `ℚ` model are restricted to
facts that do not depend on IEEE rounding — lengths, the pushed start value,
the final-element overwrite, which loop positions two functions share — or
that the claims themselves qualify with a floating-point tolerance (interior
spacing). Machine `usize` counts become `ℕ`. The `i32` of `arange` is
modelled by `ℤ` with the explicit bounds `I32_MIN`/`I32_MAX`: `current +=
step` is checked addition, so an overflow (a panic in a debug build; a wrap,
possibly followed by divergence, in release) yields `none`, as does the
`panic!` of the zero-step assert — in both cases with no partial result.
-/

namespace Rusp

/-- The accumulation loop of `linspace` / `linspace_repeated`
(`for _ in 0..samples { values.push(current); current += step; }`). -/
def pushLoop (step : ℚ) : ℕ → ℚ → List ℚ
  | 0, _ => []
  | n + 1, current => current :: pushLoop step n (current + step)

/-- `linspace` from `src/misc/utils.rs` lines 23–54. -/
def linspace (start stop : ℚ) (samples : ℕ) (include_end : Bool) : List ℚ :=
  if samples = 0 then []
  else
    let span := stop - start
    let step := if include_end then span / ((samples : ℚ) - 1) else span / (samples : ℚ)
    let values := pushLoop step samples start
    if include_end then values.dropLast ++ [stop] else values

/-- `linspace_repeated` from `src/misc/utils.rs` lines 124–151: the same
accumulation loop with the inclusive step formula and no final-element
overwrite, the base sequence then extended `repeats` times. -/
def linspace_repeated (start stop : ℚ) (samples repeats : ℕ) : List ℚ :=
  if samples = 0 ∨ repeats = 0 then []
  else
    let span := stop - start
    let step := span / ((samples : ℚ) - 1)
    let sequence := pushLoop step samples start
    (List.replicate repeats sequence).flatten

/-- Lower bound of the source's `i32` type. -/
def I32_MIN : ℤ := -2147483648

/-- Upper bound of the source's `i32` type. -/
def I32_MAX : ℤ := 2147483647

/-- The ascending `while current < stop` loop of `arange`, over the source's
`i32`: `current += step` is checked addition, and a result outside
`[I32_MIN, I32_MAX]` is an overflow — a panic in a debug build, modelled as
`none` with no partial result (a release build wraps and can then loop
forever, which no value of the total model represents; either way no sequence
is returned). The loop guard in the source tests only `current < stop`;
`0 < step` is invariant because `step` is never modified, and it is carried in
the condition here to justify termination. -/
def arangeUp (stop step current : ℤ) : Option (List ℤ) :=
  if h : 0 < step ∧ current < stop then
    if hr : I32_MIN ≤ current + step ∧ current + step ≤ I32_MAX then
      (arangeUp stop step (current + step)).map (fun l => current :: l)
    else none
  else some []
termination_by (stop - current).toNat
decreasing_by
  obtain ⟨ha, hb⟩ := h
  omega

/-- The descending `while current > stop` loop of `arange`, with the same
checked `i32` addition as `arangeUp`. -/
def arangeDown (stop step current : ℤ) : Option (List ℤ) :=
  if h : step < 0 ∧ stop < current then
    if hr : I32_MIN ≤ current + step ∧ current + step ≤ I32_MAX then
      (arangeDown stop step (current + step)).map (fun l => current :: l)
    else none
  else some []
termination_by (current - stop).toNat
decreasing_by
  obtain ⟨ha, hb⟩ := h
  omega

/-- `arange` from `src/misc/utils.rs` lines 206–225, on `i32` arguments. The
`assert!(step != 0)` panic and an `i32` overflow of the accumulator are both
modelled as `none` (no partial result). -/
def arange (start stop step : ℤ) : Option (List ℤ) :=
  if step = 0 then none
  else if 0 < step then arangeUp stop step start
  else arangeDown stop step start

/-- `reverse` from `src/misc/utils.rs` lines 271–278: copy the slice to a
fresh vector and reverse it in place. -/
def reverse {α : Type} (arr : List α) : List α :=
  arr.reverse

/-- `concatenate` from `src/misc/utils.rs` lines 365–373: a fresh vector
holding the first slice followed by the second. -/
def concatenate {α : Type} (arr1 arr2 : List α) : List α :=
  arr1 ++ arr2

/-! ### Basic lemmas about the loops -/

theorem pushLoop_eq_map (step : ℚ) :
    ∀ (n : ℕ) (current : ℚ),
      pushLoop step n current = (List.range n).map (fun i : ℕ => current + step * (i : ℚ)) := by
  intro n
  induction n with
  | zero => intro current; rfl
  | succ n ih =>
    intro current
    rw [pushLoop, ih, List.range_succ_eq_map, List.map_cons, List.map_map]
    congr 1
    · norm_num
    · congr 1
      funext i
      simp only [Function.comp_apply]
      push_cast
      ring

theorem length_pushLoop (step : ℚ) (n : ℕ) (current : ℚ) :
    (pushLoop step n current).length = n := by
  rw [pushLoop_eq_map]
  simp

theorem getD_of_lt {α : Type} (l : List α) (d : α) (i : ℕ) (h : i < l.length) :
    l.getD i d = l[i] := by
  simp [List.getD_eq_getElem?_getD, List.getElem?_eq_getElem h]

theorem getD_range_map (f : ℕ → ℚ) (n i : ℕ) (h : i < n) :
    ((List.range n).map f).getD i 0 = f i := by
  have hl : i < ((List.range n).map f).length := by simpa using h
  rw [getD_of_lt _ _ _ hl]
  simp

/-- Closed form of the exclusive branch of `linspace`. -/
theorem linspace_exclusive_eq (a b : ℚ) (n : ℕ) :
    linspace a b n false =
      (List.range n).map (fun i : ℕ => a + ((b - a) / (n : ℚ)) * (i : ℚ)) := by
  rcases Nat.eq_zero_or_pos n with h0 | hpos
  · subst h0; rfl
  · have hn : n ≠ 0 := hpos.ne'
    simp only [linspace, if_neg hn, Bool.false_eq_true, if_false]
    rw [pushLoop_eq_map]

/-- Closed form of the inclusive branch of `linspace` for `2 ≤ n`: the final
overwrite with `stop` coincides with the accumulated value, because in exact
arithmetic `a + (n-1)·(b-a)/(n-1) = b`. -/
theorem linspace_inclusive_eq (a b : ℚ) (n : ℕ) (h : 2 ≤ n) :
    linspace a b n true =
      (List.range n).map (fun i : ℕ => a + ((b - a) / ((n : ℚ) - 1)) * (i : ℚ)) := by
  obtain ⟨m, rfl⟩ : ∃ m, n = m + 1 := ⟨n - 1, by omega⟩
  have hm : 1 ≤ m := by omega
  have hm0 : (m : ℚ) ≠ 0 := by
    have h1 : (1 : ℚ) ≤ (m : ℚ) := by exact_mod_cast hm
    linarith
  have hn : (m + 1 : ℕ) ≠ 0 := by omega
  simp only [linspace, if_neg hn, if_true]
  rw [pushLoop_eq_map, List.range_succ, List.map_append, List.map_cons, List.map_nil,
    List.dropLast_concat]
  congr 1
  have hc : ((m + 1 : ℕ) : ℚ) - 1 = (m : ℚ) := by push_cast; ring
  rw [hc, div_mul_cancel₀ _ hm0]
  ring

/-- With one sample in inclusive mode the single pushed `start` is overwritten
by `stop`; the step (a division by zero) never influences the output. -/
theorem linspace_one_inclusive (a b : ℚ) : linspace a b 1 true = [b] := rfl

/-- C1: for `2 ≤ n`, `linspace a b n true` has length `n`, first element `a`,
last element `b`, and uniform spacing `(b-a)/(n-1)` between consecutive
elements (exact in the rational model of `f64`). -/
theorem C1_linspace_inclusive_spec (a b : ℚ) (n : ℕ) (h : 2 ≤ n) :
    (linspace a b n true).length = n ∧
    (linspace a b n true).getD 0 0 = a ∧
    (linspace a b n true).getD (n - 1) 0 = b ∧
    ∀ i : ℕ, i + 1 < n →
      (linspace a b n true).getD (i + 1) 0 - (linspace a b n true).getD i 0 =
        (b - a) / ((n : ℚ) - 1) := by
  have he := linspace_inclusive_eq a b n h
  refine ⟨by rw [he]; simp, ?_, ?_, ?_⟩
  · rw [he, getD_range_map _ _ _ (by omega)]
    norm_num
  · rw [he, getD_range_map _ _ _ (by omega)]
    have h1 : ((n - 1 : ℕ) : ℚ) = (n : ℚ) - 1 := by
      rw [Nat.cast_sub (by omega : 1 ≤ n)]
      norm_num
    have hne : (n : ℚ) - 1 ≠ 0 := by
      have h2 : (2 : ℚ) ≤ (n : ℚ) := by exact_mod_cast h
      linarith
    rw [h1, div_mul_cancel₀ _ hne]
    ring
  · intro i hi
    rw [he, getD_range_map _ _ _ (by omega), getD_range_map _ _ _ (by omega)]
    push_cast
    ring

/-- C1 witness at `a = 0`, `b = 10`, `n = 5`. -/
theorem C1_witness :
    2 ≤ 5 ∧ (linspace (0 : ℚ) 10 5 true).length = 5 :=
  ⟨by norm_num, (C1_linspace_inclusive_spec 0 10 5 (by norm_num)).1⟩

/-- C3 counterexample: with `a = b = 0` and `n = 1`, the exclusive sequence is
`[0]`, which contains the stop value `b = 0`; so "no element of the result ever
equals b" fails when `a = b`. -/
theorem C3_counterexample :
    linspace (0 : ℚ) 0 1 false = [0] ∧ (0 : ℚ) ∈ linspace (0 : ℚ) 0 1 false := by
  constructor
  · rfl
  · rw [show linspace (0 : ℚ) 0 1 false = [0] from rfl]
    simp

/-- C3 (amended): `linspace a b n false` returns exactly `n` elements, the
first equal to `a`, with uniform spacing `(b-a)/n` between consecutive
elements (exact in the rational model; the claim's spacing holds within
floating-point tolerance in the program, as for the inclusive variant). The
original "no element of the result ever equals b" is not retained: it fails
outright when `a = b` (the counterexample), and even for `a ≠ b` it is only a
property of exact arithmetic — under IEEE rounding the accumulation can land
exactly on `b`. -/
theorem C3_linspace_exclusive_spec (a b : ℚ) (n : ℕ) :
    (linspace a b n false).length = n ∧
    (0 < n → (linspace a b n false).getD 0 0 = a) ∧
    (∀ i : ℕ, i + 1 < n →
      (linspace a b n false).getD (i + 1) 0 - (linspace a b n false).getD i 0 =
        (b - a) / (n : ℚ)) := by
  have he := linspace_exclusive_eq a b n
  refine ⟨by rw [he]; simp, ?_, ?_⟩
  · intro hn
    rw [he, getD_range_map _ _ _ hn]
    norm_num
  · intro i hi
    rw [he, getD_range_map _ _ _ (by omega), getD_range_map _ _ _ (by omega)]
    push_cast
    ring

/-- C3 witness at `a = 0`, `b = 1`, `n = 2`. -/
theorem C3_witness :
    (linspace (0 : ℚ) 1 2 false).length = 2 ∧
    (linspace (0 : ℚ) 1 2 false).getD 0 0 = 0 :=
  ⟨(C3_linspace_exclusive_spec 0 1 2).1,
    (C3_linspace_exclusive_spec 0 1 2).2.1 (by norm_num)⟩

/-- C4: one inclusive sample returns a singleton (the overwrite fixes the one
value), and in particular `linspace a a 1 true = [a]`; the unconditional step
formula, a division by zero in the model, causes no failure because the
pushed value never depends on the step. -/
theorem C4_linspace_single_sample (a b : ℚ) :
    linspace a a 1 true = [a] ∧ linspace a b 1 true = [b] ∧
    (linspace a b 1 true).length = 1 :=
  ⟨linspace_one_inclusive a a, linspace_one_inclusive a b, by
    rw [linspace_one_inclusive]; rfl⟩

/-- C7: zero samples for `linspace`, and zero samples or zero repeats for
`linspace_repeated`, give the empty sequence (no failure: the functions are
total). -/
theorem C7_zero_counts_empty (a b : ℚ) (inc : Bool) (n r : ℕ) :
    linspace a b 0 inc = [] ∧ linspace_repeated a b 0 r = [] ∧
    linspace_repeated a b n 0 = [] := by
  refine ⟨rfl, rfl, ?_⟩
  simp [linspace_repeated]

/-- C10: for `a ≠ b` the single inclusive sample is exactly `[b]` (the stop
value), not `[a]`: the final overwrite replaces the pushed start value. -/
theorem C10_single_sample_is_stop (a b : ℚ) (h : a ≠ b) :
    linspace a b 1 true = [b] ∧ linspace a b 1 true ≠ [a] := by
  refine ⟨linspace_one_inclusive a b, ?_⟩
  rw [linspace_one_inclusive]
  intro hc
  have hba : b = a := by simpa using hc
  exact h hba.symm

/-- C10 witness at `a = 0`, `b = 1`. -/
theorem C10_witness :
    (0 : ℚ) ≠ 1 ∧ linspace (0 : ℚ) 1 1 true = [1] :=
  ⟨by norm_num, (C10_single_sample_is_stop 0 1 (by norm_num)).1⟩

theorem flatten_replicate_nil {α : Type} (r : ℕ) :
    (List.replicate r ([] : List α)).flatten = [] := by
  induction r with
  | zero => rfl
  | succ r ih => simp [List.replicate_succ, ih]

theorem flatten_replicate_length {α : Type} (r : ℕ) (l : List α) :
    ((List.replicate r l).flatten).length = r * l.length := by
  induction r with
  | zero => simp
  | succ r ih =>
    simp only [List.replicate_succ, List.flatten_cons, List.length_append, ih, Nat.succ_mul]
    omega

theorem length_linspace_repeated (a b : ℚ) (n r : ℕ) :
    (linspace_repeated a b n r).length = n * r := by
  rcases eq_or_ne n 0 with rfl | hn
  · simp [linspace_repeated]
  · rcases eq_or_ne r 0 with rfl | hr
    · simp [linspace_repeated]
    · have hc : ¬(n = 0 ∨ r = 0) := by tauto
      simp only [linspace_repeated, if_neg hc]
      rw [flatten_replicate_length, length_pushLoop]
      ring

/-- C2 counterexample: at `n = 1` the base sequence of `linspace_repeated` is
the pushed start `[a]`, while `linspace(a,b,1,true)` is the overwritten `[b]`,
so `linspace_repeated 0 1 1 1 = [0]` differs from one copy of
`linspace 0 1 1 true = [1]`. -/
theorem C2_counterexample :
    linspace_repeated (0 : ℚ) 1 1 1 = [0] ∧
    linspace (0 : ℚ) 1 1 true = [1] ∧
    linspace_repeated (0 : ℚ) 1 1 1 ≠
      (List.replicate 1 (linspace (0 : ℚ) 1 1 true)).flatten := by
  have h1 : linspace_repeated (0 : ℚ) 1 1 1 = [0] := rfl
  have h2 : (List.replicate 1 (linspace (0 : ℚ) 1 1 true)).flatten = [1] := rfl
  refine ⟨h1, rfl, ?_⟩
  rw [h1, h2]
  intro hc
  have h3 : (0 : ℚ) = 1 := by simpa using hc
  norm_num at h3

/-- C2 (amended): `linspace_repeated a b n r` always has length `n * r`, and
for nonzero sample and repeat counts it is `r` concatenated copies of one
base sequence of length `n` that agrees with `linspace a b n true` everywhere
except possibly at its final element — the two functions run the identical
accumulation loop, and only `linspace`'s final overwrite differs. Full
equality with `r` copies of `linspace a b n true` fails in general: at
`n = 1` the base is the pushed `[a]` while `linspace a b 1 true = [b]` (the
counterexample), and for `n ≥ 2` the base ends in the raw accumulated value,
which under IEEE rounding can differ from the snapped `stop`. -/
theorem C2_linspace_repeated_spec (a b : ℚ) (n r : ℕ) :
    (linspace_repeated a b n r).length = n * r ∧
    (n ≠ 0 ∧ r ≠ 0 → ∃ base : List ℚ,
      linspace_repeated a b n r = (List.replicate r base).flatten ∧
      base.length = n ∧
      base.dropLast = (linspace a b n true).dropLast) := by
  refine ⟨length_linspace_repeated a b n r, ?_⟩
  rintro ⟨hn, hr⟩
  have hc : ¬(n = 0 ∨ r = 0) := by tauto
  refine ⟨pushLoop ((b - a) / ((n : ℚ) - 1)) n a, ?_, length_pushLoop _ _ _, ?_⟩
  · simp only [linspace_repeated, if_neg hc]
  · have hlin : linspace a b n true =
        (pushLoop ((b - a) / ((n : ℚ) - 1)) n a).dropLast ++ [b] := by
      simp only [linspace, if_neg hn, if_true]
    rw [hlin, List.dropLast_concat]

/-- C2 witness at `a = 0`, `b = 10`, `n = 5`, `r = 2`. -/
theorem C2_witness :
    (linspace_repeated (0 : ℚ) 10 5 2).length = 5 * 2 :=
  (C2_linspace_repeated_spec 0 10 5 2).1

/-- C8: `reverse` keeps the length, sends index `i` to index `len-1-i`, is an
involution, maps `[]` to `[]` and a singleton to itself. -/
theorem C8_reverse_spec (x : List ℚ) :
    (reverse x).length = x.length ∧
    (∀ i : ℕ, i < x.length →
      (reverse x).getD i 0 = x.getD (x.length - 1 - i) 0) ∧
    reverse (reverse x) = x ∧
    reverse ([] : List ℚ) = [] ∧
    ∀ a : ℚ, reverse [a] = [a] := by
  refine ⟨by simp [reverse], ?_, by simp [reverse], rfl, fun a => rfl⟩
  intro i hi
  have h1 : i < (reverse x).length := by simpa [reverse] using hi
  have h2 : x.length - 1 - i < x.length := by omega
  rw [getD_of_lt _ _ _ h1, getD_of_lt _ _ _ h2]
  simp [reverse, List.getElem_reverse]

/-- C9: `concatenate` has additive length, preserves both inputs in order,
has `[]` as a two-sided identity, and is associative. -/
theorem C9_concatenate_spec (a b c : List ℚ) :
    (concatenate a b).length = a.length + b.length ∧
    (∀ i : ℕ, i < a.length → (concatenate a b).getD i 0 = a.getD i 0) ∧
    (∀ j : ℕ, j < b.length →
      (concatenate a b).getD (a.length + j) 0 = b.getD j 0) ∧
    concatenate a [] = a ∧
    concatenate ([] : List ℚ) b = b ∧
    concatenate (concatenate a b) c = concatenate a (concatenate b c) := by
  refine ⟨by simp [concatenate], ?_, ?_, by simp [concatenate], rfl,
    by simp [concatenate]⟩
  · intro i hi
    have h1 : i < (concatenate a b).length := by simp [concatenate]; omega
    rw [getD_of_lt _ _ _ h1, getD_of_lt _ _ _ hi]
    exact List.getElem_append_left hi
  · intro j hj
    have h1 : a.length + j < (concatenate a b).length := by simp [concatenate]; omega
    rw [getD_of_lt _ _ _ h1, getD_of_lt _ _ _ hj]
    have h2 : a.length ≤ a.length + j := by omega
    simp only [concatenate]
    rw [List.getElem_append_right h2]
    simp

/-! ### The `arange` loops -/

theorem arangeUp_unfold (stop step current : ℤ) :
    arangeUp stop step current =
      if 0 < step ∧ current < stop then
        if I32_MIN ≤ current + step ∧ current + step ≤ I32_MAX then
          (arangeUp stop step (current + step)).map (fun l => current :: l)
        else none
      else some [] := by
  by_cases hc : 0 < step ∧ current < stop
  · by_cases hr : I32_MIN ≤ current + step ∧ current + step ≤ I32_MAX
    · rw [arangeUp, dif_pos hc, dif_pos hr, if_pos hc, if_pos hr]
    · rw [arangeUp, dif_pos hc, dif_neg hr, if_pos hc, if_neg hr]
  · rw [arangeUp, dif_neg hc, if_neg hc]

theorem arangeDown_unfold (stop step current : ℤ) :
    arangeDown stop step current =
      if step < 0 ∧ stop < current then
        if I32_MIN ≤ current + step ∧ current + step ≤ I32_MAX then
          (arangeDown stop step (current + step)).map (fun l => current :: l)
        else none
      else some [] := by
  by_cases hc : step < 0 ∧ stop < current
  · by_cases hr : I32_MIN ≤ current + step ∧ current + step ≤ I32_MAX
    · rw [arangeDown, dif_pos hc, dif_pos hr, if_pos hc, if_pos hr]
    · rw [arangeDown, dif_pos hc, dif_neg hr, if_pos hc, if_neg hr]
  · rw [arangeDown, dif_neg hc, if_neg hc]

theorem arangeUp_eval_example : arangeUp 10 2 0 = some [0, 2, 4, 6, 8] := by
  have e10 : arangeUp 10 2 10 = some [] := by
    rw [arangeUp_unfold]
    norm_num
  have e8 : arangeUp 10 2 8 = some [8] := by
    rw [arangeUp_unfold]
    norm_num [I32_MIN, I32_MAX, e10]
  have e6 : arangeUp 10 2 6 = some [6, 8] := by
    rw [arangeUp_unfold]
    norm_num [I32_MIN, I32_MAX, e8]
  have e4 : arangeUp 10 2 4 = some [4, 6, 8] := by
    rw [arangeUp_unfold]
    norm_num [I32_MIN, I32_MAX, e6]
  have e2 : arangeUp 10 2 2 = some [2, 4, 6, 8] := by
    rw [arangeUp_unfold]
    norm_num [I32_MIN, I32_MAX, e4]
  rw [arangeUp_unfold]
  norm_num [I32_MIN, I32_MAX, e2]

theorem arangeDown_eval_example : arangeDown 0 (-2) 10 = some [10, 8, 6, 4, 2] := by
  have e0 : arangeDown 0 (-2) 0 = some [] := by
    rw [arangeDown_unfold]
    norm_num
  have e2 : arangeDown 0 (-2) 2 = some [2] := by
    rw [arangeDown_unfold]
    norm_num [I32_MIN, I32_MAX, e0]
  have e4 : arangeDown 0 (-2) 4 = some [4, 2] := by
    rw [arangeDown_unfold]
    norm_num [I32_MIN, I32_MAX, e2]
  have e6 : arangeDown 0 (-2) 6 = some [6, 4, 2] := by
    rw [arangeDown_unfold]
    norm_num [I32_MIN, I32_MAX, e4]
  have e8 : arangeDown 0 (-2) 8 = some [8, 6, 4, 2] := by
    rw [arangeDown_unfold]
    norm_num [I32_MIN, I32_MAX, e6]
  rw [arangeDown_unfold]
  norm_num [I32_MIN, I32_MAX, e8]

/-- At `start = 2147483646`, `stop = 2147483647 = i32::MAX`, `step = 2`, the
first `current += step` leaves `i32`: the loop fails after pushing one value
and `arange` returns nothing. -/
theorem arange_overflow_eval : arange 2147483646 2147483647 2 = none := by
  have h1 : arangeUp 2147483647 2 2147483646 = none := by
    rw [arangeUp_unfold]
    norm_num [I32_MIN, I32_MAX]
  rw [show arange 2147483646 2147483647 2 = arangeUp 2147483647 2 2147483646 from by
    norm_num [arange]]
  exact h1

theorem arangeUp_spec (stop step : ℤ) (hs : 0 < step) :
    ∀ (fuel : ℕ) (current : ℤ), (stop - current).toNat ≤ fuel →
      ∀ l, arangeUp stop step current = some l →
        (∀ i : ℕ, i < l.length → l.getD i 0 = current + step * i) ∧
        (∀ x ∈ l, x < stop) ∧
        stop ≤ current + step * l.length := by
  intro fuel
  induction fuel with
  | zero =>
    intro current hf l hl
    have hns : ¬current < stop := by omega
    rw [arangeUp_unfold, if_neg (by tauto)] at hl
    obtain rfl : ([] : List ℤ) = l := by injection hl
    refine ⟨by simp, by simp, ?_⟩
    simp only [List.length_nil, Nat.cast_zero, mul_zero, add_zero]
    omega
  | succ fuel ih =>
    intro current hf l hl
    by_cases hlt : current < stop
    · rw [arangeUp_unfold, if_pos ⟨hs, hlt⟩] at hl
      by_cases hr : I32_MIN ≤ current + step ∧ current + step ≤ I32_MAX
      · rw [if_pos hr] at hl
        cases hE : arangeUp stop step (current + step) with
        | none => rw [hE] at hl; simp at hl
        | some l2 =>
          rw [hE, Option.map_some'] at hl
          injection hl with hl2
          subst hl2
          obtain ⟨ih1, ih2, ih3⟩ := ih (current + step) (by omega) l2 hE
          refine ⟨?_, ?_, ?_⟩
          · intro i hi
            cases i with
            | zero => simp
            | succ i =>
              simp only [List.length_cons] at hi
              have hi2 : i < l2.length := by omega
              have h3 := ih1 i hi2
              rw [List.getD_cons_succ, h3]
              push_cast
              ring
          · intro x hx
            rcases List.mem_cons.mp hx with rfl | hx
            · exact hlt
            · exact ih2 x hx
          · simp only [List.length_cons]
            have h4 : current + step * (((l2.length : ℤ)) + 1) =
                (current + step) + step * (l2.length : ℤ) := by
              ring
            push_cast
            linarith [ih3, h4]
      · rw [if_neg hr] at hl
        simp at hl
    · rw [arangeUp_unfold, if_neg (by tauto)] at hl
      obtain rfl : ([] : List ℤ) = l := by injection hl
      refine ⟨by simp, by simp, ?_⟩
      simp only [List.length_nil, Nat.cast_zero, mul_zero, add_zero]
      omega

theorem arangeDown_spec (stop step : ℤ) (hs : step < 0) :
    ∀ (fuel : ℕ) (current : ℤ), (current - stop).toNat ≤ fuel →
      ∀ l, arangeDown stop step current = some l →
        (∀ i : ℕ, i < l.length → l.getD i 0 = current + step * i) ∧
        (∀ x ∈ l, stop < x) ∧
        current + step * l.length ≤ stop := by
  intro fuel
  induction fuel with
  | zero =>
    intro current hf l hl
    have hns : ¬stop < current := by omega
    rw [arangeDown_unfold, if_neg (by tauto)] at hl
    obtain rfl : ([] : List ℤ) = l := by injection hl
    refine ⟨by simp, by simp, ?_⟩
    simp only [List.length_nil, Nat.cast_zero, mul_zero, add_zero]
    omega
  | succ fuel ih =>
    intro current hf l hl
    by_cases hlt : stop < current
    · rw [arangeDown_unfold, if_pos ⟨hs, hlt⟩] at hl
      by_cases hr : I32_MIN ≤ current + step ∧ current + step ≤ I32_MAX
      · rw [if_pos hr] at hl
        cases hE : arangeDown stop step (current + step) with
        | none => rw [hE] at hl; simp at hl
        | some l2 =>
          rw [hE, Option.map_some'] at hl
          injection hl with hl2
          subst hl2
          obtain ⟨ih1, ih2, ih3⟩ := ih (current + step) (by omega) l2 hE
          refine ⟨?_, ?_, ?_⟩
          · intro i hi
            cases i with
            | zero => simp
            | succ i =>
              simp only [List.length_cons] at hi
              have hi2 : i < l2.length := by omega
              have h3 := ih1 i hi2
              rw [List.getD_cons_succ, h3]
              push_cast
              ring
          · intro x hx
            rcases List.mem_cons.mp hx with rfl | hx
            · exact hlt
            · exact ih2 x hx
          · simp only [List.length_cons]
            have h4 : current + step * (((l2.length : ℤ)) + 1) =
                (current + step) + step * (l2.length : ℤ) := by
              ring
            push_cast
            linarith [ih3, h4]
      · rw [if_neg hr] at hl
        simp at hl
    · rw [arangeDown_unfold, if_neg (by tauto)] at hl
      obtain rfl : ([] : List ℤ) = l := by injection hl
      refine ⟨by simp, by simp, ?_⟩
      simp only [List.length_nil, Nat.cast_zero, mul_zero, add_zero]
      omega

theorem arangeUp_none (stop step : ℤ) :
    ∀ (fuel : ℕ) (current : ℤ), (stop - current).toNat ≤ fuel →
      arangeUp stop step current = none →
        ∃ k : ℕ, ¬(I32_MIN ≤ current + step * (k + 1) ∧
          current + step * (k + 1) ≤ I32_MAX) := by
  intro fuel
  induction fuel with
  | zero =>
    intro current hf hl
    have hns : ¬current < stop := by omega
    rw [arangeUp_unfold, if_neg (by tauto)] at hl
    exact absurd hl (by simp)
  | succ fuel ih =>
    intro current hf hl
    by_cases hsp : 0 < step
    · by_cases hlt : current < stop
      · rw [arangeUp_unfold, if_pos ⟨hsp, hlt⟩] at hl
        by_cases hr : I32_MIN ≤ current + step ∧ current + step ≤ I32_MAX
        · rw [if_pos hr] at hl
          rw [Option.map_eq_none'] at hl
          obtain ⟨k, hk⟩ := ih (current + step) (by omega) hl
          refine ⟨k + 1, ?_⟩
          push_cast at hk ⊢
          have hXY : current + step * ((k : ℤ) + 1 + 1) =
              current + step + step * ((k : ℤ) + 1) := by ring
          rw [hXY]
          exact hk
        · refine ⟨0, ?_⟩
          push_cast
          simpa using hr
      · rw [arangeUp_unfold, if_neg (by tauto)] at hl
        exact absurd hl (by simp)
    · rw [arangeUp_unfold, if_neg (by tauto)] at hl
      exact absurd hl (by simp)

theorem arangeDown_none (stop step : ℤ) :
    ∀ (fuel : ℕ) (current : ℤ), (current - stop).toNat ≤ fuel →
      arangeDown stop step current = none →
        ∃ k : ℕ, ¬(I32_MIN ≤ current + step * (k + 1) ∧
          current + step * (k + 1) ≤ I32_MAX) := by
  intro fuel
  induction fuel with
  | zero =>
    intro current hf hl
    have hns : ¬stop < current := by omega
    rw [arangeDown_unfold, if_neg (by tauto)] at hl
    exact absurd hl (by simp)
  | succ fuel ih =>
    intro current hf hl
    by_cases hsn : step < 0
    · by_cases hlt : stop < current
      · rw [arangeDown_unfold, if_pos ⟨hsn, hlt⟩] at hl
        by_cases hr : I32_MIN ≤ current + step ∧ current + step ≤ I32_MAX
        · rw [if_pos hr] at hl
          rw [Option.map_eq_none'] at hl
          obtain ⟨k, hk⟩ := ih (current + step) (by omega) hl
          refine ⟨k + 1, ?_⟩
          push_cast at hk ⊢
          have hXY : current + step * ((k : ℤ) + 1 + 1) =
              current + step + step * ((k : ℤ) + 1) := by ring
          rw [hXY]
          exact hk
        · refine ⟨0, ?_⟩
          push_cast
          simpa using hr
      · rw [arangeDown_unfold, if_neg (by tauto)] at hl
        exact absurd hl (by simp)
    · rw [arangeDown_unfold, if_neg (by tauto)] at hl
      exact absurd hl (by simp)

/-- C5 counterexample: at the valid `i32` input `(2147483646, 2147483647, 2)`
the claim predicts the sequence `[2147483646]`, but after the single push
`current += step` overflows `i32`: a debug build panics and a release build
wraps to `-2147483648` and, by parity, never reaches an exit of the loop; the
program returns no sequence (model: `none`). -/
theorem C5_counterexample :
    arange 2147483646 2147483647 2 = none ∧
    arange 2147483646 2147483647 2 ≠ some [2147483646] := by
  refine ⟨arange_overflow_eval, ?_⟩
  rw [arange_overflow_eval]
  simp

/-- C5 (amended: restricted to executions in which the `i32` accumulator never
overflows, i.e. to inputs where `arange` returns a sequence): for nonzero
step the result is exactly the progression `start + i·step`, each element
strictly below `stop` for positive step and strictly above it for negative
step, and the value one past the end would violate the bound — so the result
is empty exactly when `start` already satisfies the termination condition; in
particular `arange 0 10 2 = [0,2,4,6,8]` and `arange 10 0 (-2) = [10,8,6,4,2]`. -/
theorem C5_arange_spec (start stop step : ℤ) (l : List ℤ) (h : step ≠ 0)
    (hl : arange start stop step = some l) :
    (∀ i : ℕ, i < l.length → l.getD i 0 = start + step * i) ∧
    (0 < step → (∀ x ∈ l, x < stop) ∧ stop ≤ start + step * l.length) ∧
    (step < 0 → (∀ x ∈ l, stop < x) ∧ start + step * l.length ≤ stop) ∧
    arange 0 10 2 = some [0, 2, 4, 6, 8] ∧
    arange 10 0 (-2) = some [10, 8, 6, 4, 2] := by
  have hex1 : arange 0 10 2 = some [0, 2, 4, 6, 8] := by
    rw [show arange 0 10 2 = arangeUp 10 2 0 from by norm_num [arange]]
    exact arangeUp_eval_example
  have hex2 : arange 10 0 (-2) = some [10, 8, 6, 4, 2] := by
    rw [show arange 10 0 (-2) = arangeDown 0 (-2) 10 from by norm_num [arange]]
    exact arangeDown_eval_example
  rcases lt_or_gt_of_ne h with hneg | hpos
  · have hnp : ¬0 < step := by omega
    have hd : arangeDown stop step start = some l := by
      simpa [arange, h, hnp] using hl
    obtain ⟨h1, h2, h3⟩ :=
      arangeDown_spec stop step hneg (start - stop).toNat start le_rfl l hd
    exact ⟨h1, fun hp => absurd hp hnp, fun _ => ⟨h2, h3⟩, hex1, hex2⟩
  · have hu : arangeUp stop step start = some l := by
      simpa [arange, h, hpos] using hl
    obtain ⟨h1, h2, h3⟩ :=
      arangeUp_spec stop step hpos (stop - start).toNat start le_rfl l hu
    exact ⟨h1, fun _ => ⟨h2, h3⟩, fun hn => absurd hn (by omega), hex1, hex2⟩

/-- C5 witness at `start = 0`, `stop = 10`, `step = 2`, result `[0,2,4,6,8]`. -/
theorem C5_witness :
    (2 : ℤ) ≠ 0 ∧ arange 0 10 2 = some [0, 2, 4, 6, 8] := by
  have hl : arange 0 10 2 = some [0, 2, 4, 6, 8] := by
    rw [show arange 0 10 2 = arangeUp 10 2 0 from by norm_num [arange]]
    exact arangeUp_eval_example
  exact ⟨by norm_num, (C5_arange_spec 0 10 2 [0, 2, 4, 6, 8] (by norm_num) hl).2.2.2.1⟩

/-- C6 counterexample: the claim says no error is raised for any nonzero step,
but at `(2147483646, 2147483647, 2)` the step is nonzero and the program still
fails (debug `i32`-overflow panic; release wraps and diverges): the model
returns `none`. -/
theorem C6_counterexample :
    (2 : ℤ) ≠ 0 ∧ arange 2147483646 2147483647 2 = none :=
  ⟨by norm_num, arange_overflow_eval⟩

/-- C6 (amended): a zero step always makes `arange` fail immediately with no
partial result; conversely a failure implies either a zero step or an `i32`
overflow of some accumulator value `start + (k+1)·step` — so for nonzero step
no error is raised as long as the accumulation stays within `i32`. -/
theorem C6_arange_fails_iff_zero_step (start stop step : ℤ) :
    (step = 0 → arange start stop step = none) ∧
    (arange start stop step = none →
      step = 0 ∨ ∃ k : ℕ, ¬(I32_MIN ≤ start + step * (k + 1) ∧
        start + step * (k + 1) ≤ I32_MAX)) := by
  constructor
  · intro hz
    simp [arange, hz]
  · intro hn
    by_cases hz : step = 0
    · exact Or.inl hz
    · refine Or.inr ?_
      by_cases hp : 0 < step
      · have hu : arangeUp stop step start = none := by
          simpa [arange, hz, hp] using hn
        exact arangeUp_none stop step (stop - start).toNat start le_rfl hu
      · have hd : arangeDown stop step start = none := by
          simpa [arange, hz, hp] using hn
        exact arangeDown_none stop step (start - stop).toNat start le_rfl hd

end Rusp
